import Mathlib

/-!
Verification of the Fisher-matrix numerical core of this repository
(`scripts/refactoring_4/fishermatrix.py` and relatives) against its
natural-language specification.

The Python code is shallowly embedded over the reals:

* numpy arrays over a frequency grid become functions `Fin nf → ℂ` or `Fin nf → ℝ`;
* square matrices become Mathlib matrices `Matrix (Fin n) (Fin n) ℝ`;
* `np.linalg.svd` is an external collaborator and is modelled as an oracle
  producing a triple `(U, S, Vh)`; the predicate `isSVD` records exactly the
  guarantees numpy documents for it (orthogonal factors, nonnegative singular
  values in descending order, exact reconstruction);
* Python dicts of parameters become `String → Option ℝ`;
* code whose Python semantics can raise (KeyError, LinAlgError, assert) is
  embedded with `Except String`.
-/

open scoped Classical

noncomputable section

namespace FisherSpec

/-! ### SVD oracle model -/

/-- The triple returned by `np.linalg.svd` for an `n × n` input. -/
structure SVDData (n : ℕ) where
  U : Matrix (Fin n) (Fin n) ℝ
  S : Fin n → ℝ
  Vh : Matrix (Fin n) (Fin n) ℝ

/-- What numpy guarantees about `U, S, Vh = np.linalg.svd(A)` for a square real
input: `U` and `Vh` are orthogonal, the singular values are nonnegative and
sorted in descending order, and `U @ diag(S) @ Vh` reconstructs `A`. -/
def isSVD {n : ℕ} (A : Matrix (Fin n) (Fin n) ℝ) (d : SVDData n) : Prop :=
  d.U * d.U.transpose = 1 ∧ d.U.transpose * d.U = 1 ∧
  d.Vh * d.Vh.transpose = 1 ∧ d.Vh.transpose * d.Vh = 1 ∧
  (∀ l, 0 ≤ d.S l) ∧ Antitone d.S ∧
  d.U * Matrix.diagonal d.S * d.Vh = A

/-- The fixed truncation threshold `thresh = 1e-10` of `invertSVD`. -/
def svdThreshold : ℝ := 1e-10

/-- `kVal = sum(S > thresh)`: the number of retained singular values. -/
def svdKVal {n : ℕ} (d : SVDData n) : ℕ :=
  (Finset.univ.filter (fun l => svdThreshold < d.S l)).card

/-! ### Matrix Conditioner — `invertSVD` -/

/-- `normalizer = np.outer(dm, dm)` with `dm = np.sqrt(np.diag(matrix))`. -/
def matNormalizer {n : ℕ} (matrix : Matrix (Fin n) (Fin n) ℝ) :
    Matrix (Fin n) (Fin n) ℝ :=
  fun i j => Real.sqrt (matrix i i) * Real.sqrt (matrix j j)

/-- `matrix_norm = matrix / normalizer` (element-wise). -/
def matNormalized {n : ℕ} (matrix : Matrix (Fin n) (Fin n) ℝ) :
    Matrix (Fin n) (Fin n) ℝ :=
  fun i j => matrix i j / matNormalizer matrix i j

/-- `U[:, 0:kVal] @ np.diag(1.0 / S[0:kVal]) @ Vh[0:kVal, :]` — the truncated
pseudo-inverse of the normalized matrix, written as the entrywise sum it is. -/
def svdTruncatedInverse {n : ℕ} (d : SVDData n) : Matrix (Fin n) (Fin n) ℝ :=
  fun a b => ∑ l : Fin n, if l.val < svdKVal d then d.U a l * (1 / d.S l) * d.Vh l b else 0

/-- Shallow embedding of `invertSVD` from `refactoring_4/fishermatrix.py`
(lines 13–25), with `np.linalg.svd` supplied as the oracle `svd`. -/
def invertSVD {n : ℕ} (svd : Matrix (Fin n) (Fin n) ℝ → SVDData n)
    (matrix : Matrix (Fin n) (Fin n) ℝ) : Matrix (Fin n) (Fin n) ℝ :=
  let d := svd (matNormalized matrix)
  fun i j => svdTruncatedInverse d i j / matNormalizer matrix i j

/-! ### Spec-side restatement of the Matrix Conditioner (for the refinement
claim C1).  These definitions follow the wording of the specification:
normalize `M` element-wise by `outer(d, d)` with `d_i = sqrt(M_ii)`, take the
SVD of the normalized matrix, retain only singular values strictly greater
than `1e-10` (count `k`), reconstruct `U[:, :k] · diag(1/S[:k]) · Vᵗ[:k, :]`,
and divide element-wise by the same `outer(d, d)`. -/

/-- Spec wording: the outer-product normalizer `outer(d, d)`, `d_i = sqrt(M_ii)`. -/
def specOuterNormalizer {n : ℕ} (M : Matrix (Fin n) (Fin n) ℝ) :
    Matrix (Fin n) (Fin n) ℝ :=
  fun i j => Real.sqrt (M i i) * Real.sqrt (M j j)

/-- Spec wording: `M` normalized element-wise by `outer(d, d)`. -/
def specNormalizedMatrix {n : ℕ} (M : Matrix (Fin n) (Fin n) ℝ) :
    Matrix (Fin n) (Fin n) ℝ :=
  fun i j => M i j / specOuterNormalizer M i j

/-- Spec wording: number of singular values strictly greater than `1e-10`. -/
def specRetainedCount {n : ℕ} (d : SVDData n) : ℕ :=
  (Finset.univ.filter (fun l => (1e-10 : ℝ) < d.S l)).card

/-- Spec wording: reconstruct `U[:, :k] · diag(1/S[:k]) · Vᵗ[:k, :]` and divide
element-wise by the same `outer(d, d)`. -/
def specPseudoInverse {n : ℕ} (svd : Matrix (Fin n) (Fin n) ℝ → SVDData n)
    (M : Matrix (Fin n) (Fin n) ℝ) : Matrix (Fin n) (Fin n) ℝ :=
  let d := svd (specNormalizedMatrix M)
  fun i j =>
    (∑ l : Fin n, if l.val < specRetainedCount d then d.U i l * (1 / d.S l) * d.Vh l j else 0) /
      specOuterNormalizer M i j

/-! ### Structure lemmas about `invertSVD` -/

/-- Positivity of the truncation threshold. -/
lemma svdThreshold_pos : (0 : ℝ) < svdThreshold := by norm_num [svdThreshold]

/-- Because numpy sorts singular values in descending order, the retained
indices `l < kVal` are exactly the indices with `S l > thresh`. -/
lemma lt_svdKVal_iff {n : ℕ} (d : SVDData n) (hS : Antitone d.S) (l : Fin n) :
    l.val < svdKVal d ↔ svdThreshold < d.S l := by
  constructor
  · intro h
    by_contra hl
    have hsub : (Finset.univ.filter (fun m => svdThreshold < d.S m)) ⊆ Finset.Iio l := by
      intro m hm
      rw [Finset.mem_filter] at hm
      rw [Finset.mem_Iio]
      by_contra hml
      exact hl (lt_of_lt_of_le hm.2 (hS (le_of_not_lt hml)))
    have := Finset.card_le_card hsub
    rw [Fin.card_Iio] at this
    exact absurd h (not_lt_of_le (le_trans this (le_refl _)))
  · intro h
    have hsub : Finset.Iic l ⊆ (Finset.univ.filter (fun m => svdThreshold < d.S m)) := by
      intro m hm
      rw [Finset.mem_Iic] at hm
      rw [Finset.mem_filter]
      exact ⟨Finset.mem_univ m, lt_of_lt_of_le h (hS hm)⟩
    have := Finset.card_le_card hsub
    rw [Fin.card_Iic] at this
    exact lt_of_lt_of_le (Nat.lt_succ_self _) this

/-- The masked singular-value inverse: `1/S l` where `S l` is retained, `0`
where it is truncated away. -/
def maskedInv {n : ℕ} (d : SVDData n) : Fin n → ℝ :=
  fun l => if svdThreshold < d.S l then 1 / d.S l else 0

/-- The truncated reconstruction equals the full matrix product
`U * diag(maskedInv) * Vh` whenever the singular values are sorted. -/
lemma svdTruncatedInverse_eq {n : ℕ} (d : SVDData n) (hS : Antitone d.S) :
    svdTruncatedInverse d = d.U * Matrix.diagonal (maskedInv d) * d.Vh := by
  ext a b
  rw [Matrix.mul_assoc]
  rw [Matrix.mul_apply]
  unfold svdTruncatedInverse
  apply Finset.sum_congr rfl
  intro l _
  rw [Matrix.diagonal_mul]
  by_cases h : svdThreshold < d.S l
  · rw [if_pos ((lt_svdKVal_iff d hS l).mpr h), maskedInv]
    simp [h, mul_assoc]
  · rw [if_neg (fun hc => h ((lt_svdKVal_iff d hS l).mp hc)), maskedInv]
    simp [h]

/-- Entrywise: division of every entry by the outer normalizer is conjugation
by the inverse diagonal matrix. -/
lemma div_outer_eq_diag_conj {n : ℕ} (X M : Matrix (Fin n) (Fin n) ℝ) :
    (fun i j => X i j / matNormalizer M i j) =
      Matrix.diagonal (fun i => (Real.sqrt (M i i))⁻¹) * X *
        Matrix.diagonal (fun i => (Real.sqrt (M i i))⁻¹) := by
  ext i j
  rw [Matrix.mul_diagonal, Matrix.diagonal_mul, matNormalizer]
  rw [div_eq_mul_inv, mul_inv]
  ring

/-- `invertSVD` in matrix form: conjugate the truncated reconstruction by the
inverse of the diagonal normalizer. -/
lemma invertSVD_eq_conj {n : ℕ} (svd : Matrix (Fin n) (Fin n) ℝ → SVDData n)
    (M : Matrix (Fin n) (Fin n) ℝ) :
    invertSVD svd M =
      Matrix.diagonal (fun i => (Real.sqrt (M i i))⁻¹) *
        svdTruncatedInverse (svd (matNormalized M)) *
        Matrix.diagonal (fun i => (Real.sqrt (M i i))⁻¹) := by
  rw [← div_outer_eq_diag_conj]
  rfl

/-- The normalized matrix in matrix form, assuming a strictly positive
diagonal. -/
lemma matNormalized_eq_conj {n : ℕ} (M : Matrix (Fin n) (Fin n) ℝ) :
    matNormalized M =
      Matrix.diagonal (fun i => (Real.sqrt (M i i))⁻¹) * M *
        Matrix.diagonal (fun i => (Real.sqrt (M i i))⁻¹) := by
  rw [← div_outer_eq_diag_conj]
  rfl

/-- Recover `M` from its normalized form when the diagonal is positive. -/
lemma self_eq_diag_conj_normalized {n : ℕ} (M : Matrix (Fin n) (Fin n) ℝ)
    (hpos : ∀ i, 0 < M i i) :
    M = Matrix.diagonal (fun i => Real.sqrt (M i i)) * matNormalized M *
        Matrix.diagonal (fun i => Real.sqrt (M i i)) := by
  ext i j
  rw [Matrix.mul_diagonal, Matrix.diagonal_mul, matNormalized, matNormalizer]
  have hi : Real.sqrt (M i i) ≠ 0 := ne_of_gt (Real.sqrt_pos.mpr (hpos i))
  have hj : Real.sqrt (M j j) ≠ 0 := ne_of_gt (Real.sqrt_pos.mpr (hpos j))
  field_simp
  ring

/-- For a symmetric matrix, the reconstruction also reads `Vhᵀ * diag S * Uᵀ`. -/
lemma symm_svd_form {n : ℕ} {A : Matrix (Fin n) (Fin n) ℝ} {d : SVDData n}
    (h : isSVD A d) (hA : A.transpose = A) :
    A = d.Vh.transpose * Matrix.diagonal d.S * d.U.transpose := by
  obtain ⟨_, _, _, _, _, _, hrec⟩ := h
  calc A = A.transpose := hA.symm
    _ = (d.U * Matrix.diagonal d.S * d.Vh).transpose := by rw [hrec]
    _ = d.Vh.transpose * Matrix.diagonal d.S * d.U.transpose := by
        rw [Matrix.transpose_mul, Matrix.transpose_mul, Matrix.diagonal_transpose,
          Matrix.mul_assoc]

/-- The masked inverse swallows the singular values: `g * S * g = g`. -/
lemma maskedInv_mul_S_mul {n : ℕ} (d : SVDData n) :
    (fun l => maskedInv d l * d.S l * maskedInv d l) = maskedInv d := by
  funext l
  unfold maskedInv
  by_cases h : svdThreshold < d.S l
  · have hne : d.S l ≠ 0 := ne_of_gt (lt_trans svdThreshold_pos h)
    rw [if_pos h]
    field_simp
  · rw [if_neg h]
    ring

/-- First pseudo-inverse law at the normalized level: for any valid SVD of a
symmetric matrix `A`, the truncated reconstruction `P` satisfies `P A P = P`
exactly, regardless of how many singular values are truncated. -/
lemma trunc_mul_mul_trunc {n : ℕ} {A : Matrix (Fin n) (Fin n) ℝ} {d : SVDData n}
    (h : isSVD A d) (hA : A.transpose = A) :
    svdTruncatedInverse d * A * svdTruncatedInverse d = svdTruncatedInverse d := by
  obtain ⟨hU1, hU2, hV1, hV2, hS0, hSa, hrec⟩ := h
  have hform := symm_svd_form ⟨hU1, hU2, hV1, hV2, hS0, hSa, hrec⟩ hA
  rw [svdTruncatedInverse_eq d hSa]
  conv_lhs => rw [hform]
  simp only [Matrix.mul_assoc]
  rw [← Matrix.mul_assoc d.Vh d.Vh.transpose, hV1, Matrix.one_mul]
  rw [← Matrix.mul_assoc d.U.transpose d.U, hU2, Matrix.one_mul]
  rw [← Matrix.mul_assoc (Matrix.diagonal d.S) (Matrix.diagonal (maskedInv d)),
    Matrix.diagonal_mul_diagonal]
  rw [← Matrix.mul_assoc (Matrix.diagonal (maskedInv d))
    (Matrix.diagonal fun l => d.S l * maskedInv d l), Matrix.diagonal_mul_diagonal]
  have : (fun l => maskedInv d l * (d.S l * maskedInv d l)) = maskedInv d := by
    have := maskedInv_mul_S_mul d
    funext l
    calc maskedInv d l * (d.S l * maskedInv d l)
        = maskedInv d l * d.S l * maskedInv d l := by ring
      _ = maskedInv d l := congrFun this l
  rw [this]

/-- The singular values swallow the masked inverse when every truncated
singular value is exactly zero: `S * g * S = S`. -/
lemma S_mul_maskedInv_mul {n : ℕ} (d : SVDData n)
    (hz : ∀ l, svdThreshold < d.S l ∨ d.S l = 0) :
    (fun l => d.S l * maskedInv d l * d.S l) = d.S := by
  funext l
  unfold maskedInv
  rcases hz l with h | h
  · have hne : d.S l ≠ 0 := ne_of_gt (lt_trans svdThreshold_pos h)
    rw [if_pos h]
    field_simp
  · simp [h]

/-- Second pseudo-inverse law at the normalized level: `A P A = A` holds
exactly when every singular value at or below the threshold is zero. -/
lemma mul_trunc_mul {n : ℕ} {A : Matrix (Fin n) (Fin n) ℝ} {d : SVDData n}
    (h : isSVD A d) (hA : A.transpose = A)
    (hz : ∀ l, svdThreshold < d.S l ∨ d.S l = 0) :
    A * svdTruncatedInverse d * A = A := by
  obtain ⟨hU1, hU2, hV1, hV2, hS0, hSa, hrec⟩ := h
  have hform := symm_svd_form ⟨hU1, hU2, hV1, hV2, hS0, hSa, hrec⟩ hA
  rw [svdTruncatedInverse_eq d hSa]
  conv_lhs => rw [hform]
  simp only [Matrix.mul_assoc]
  rw [← Matrix.mul_assoc d.U.transpose d.U, hU2, Matrix.one_mul]
  rw [← Matrix.mul_assoc d.Vh d.Vh.transpose, hV1, Matrix.one_mul]
  rw [← Matrix.mul_assoc (Matrix.diagonal d.S) (Matrix.diagonal (maskedInv d)),
    Matrix.diagonal_mul_diagonal]
  rw [← Matrix.mul_assoc (Matrix.diagonal fun l => d.S l * maskedInv d l)
    (Matrix.diagonal d.S), Matrix.diagonal_mul_diagonal]
  have : (fun l => d.S l * maskedInv d l * d.S l) = d.S := S_mul_maskedInv_mul d hz
  rw [this, ← Matrix.mul_assoc, ← hform]

/-- Sandwich law: conjugating both factors by mutually inverse diagonal
matrices preserves the `P A P = P` law. -/
lemma conj_sandwich_law {n : ℕ} (P A Dm Di : Matrix (Fin n) (Fin n) ℝ)
    (hid : Di * Dm = 1) (hid2 : Dm * Di = 1) (hPAP : P * A * P = P) :
    (Di * P * Di) * (Dm * A * Dm) * (Di * P * Di) = Di * P * Di := by
  simp only [Matrix.mul_assoc]
  rw [← Matrix.mul_assoc Di Dm, hid, Matrix.one_mul]
  rw [← Matrix.mul_assoc Dm Di, hid2, Matrix.one_mul]
  have h : P * A * P * Di = P * (A * (P * Di)) := by simp only [Matrix.mul_assoc]
  rw [← h, hPAP]

/-- Symmetry of the input matrix transfers to its normalized form. -/
lemma matNormalized_symm {n : ℕ} (M : Matrix (Fin n) (Fin n) ℝ)
    (hsymm : M.transpose = M) :
    (matNormalized M).transpose = matNormalized M := by
  ext i j
  have hij : M j i = M i j := by
    have := congrFun (congrFun hsymm i) j
    simpa [Matrix.transpose_apply] using this
  simp only [Matrix.transpose_apply, matNormalized, matNormalizer, hij]
  ring_nf

/-- The two mutually inverse diagonal normalizer factors. -/
lemma diag_sqrt_inv_mul {n : ℕ} (M : Matrix (Fin n) (Fin n) ℝ)
    (hpos : ∀ i, 0 < M i i) :
    Matrix.diagonal (fun i => (Real.sqrt (M i i))⁻¹) *
      Matrix.diagonal (fun i => Real.sqrt (M i i)) = (1 : Matrix (Fin n) (Fin n) ℝ) := by
  rw [Matrix.diagonal_mul_diagonal]
  have h : (fun i => (Real.sqrt (M i i))⁻¹ * Real.sqrt (M i i)) = fun _ => (1 : ℝ) :=
    funext fun i => inv_mul_cancel₀ (ne_of_gt (Real.sqrt_pos.mpr (hpos i)))
  rw [h, Matrix.diagonal_one]

/-- The two mutually inverse diagonal normalizer factors, other order. -/
lemma diag_sqrt_mul_inv {n : ℕ} (M : Matrix (Fin n) (Fin n) ℝ)
    (hpos : ∀ i, 0 < M i i) :
    Matrix.diagonal (fun i => Real.sqrt (M i i)) *
      Matrix.diagonal (fun i => (Real.sqrt (M i i))⁻¹) = (1 : Matrix (Fin n) (Fin n) ℝ) := by
  rw [Matrix.diagonal_mul_diagonal]
  have h : (fun i => Real.sqrt (M i i) * (Real.sqrt (M i i))⁻¹) = fun _ => (1 : ℝ) :=
    funext fun i => mul_inv_cancel₀ (ne_of_gt (Real.sqrt_pos.mpr (hpos i)))
  rw [h, Matrix.diagonal_one]

/-- First pseudo-inverse law for `invertSVD`, exact: for every symmetric `M`
with strictly positive diagonal and any valid SVD of its normalized form,
`invertSVD(M) @ M @ invertSVD(M) = invertSVD(M)` with no error at all. -/
lemma invertSVD_law1 {n : ℕ} (svd : Matrix (Fin n) (Fin n) ℝ → SVDData n)
    (M : Matrix (Fin n) (Fin n) ℝ) (hsymm : M.transpose = M)
    (hpos : ∀ i, 0 < M i i)
    (hsvd : isSVD (matNormalized M) (svd (matNormalized M))) :
    invertSVD svd M * M * invertSVD svd M = invertSVD svd M := by
  have hPAP := trunc_mul_mul_trunc hsvd (matNormalized_symm M hsymm)
  have h1 := invertSVD_eq_conj svd M
  have h2 := self_eq_diag_conj_normalized M hpos
  rw [h1]
  conv_lhs => enter [1, 2]; rw [h2]
  exact conj_sandwich_law _ _ _ _ (diag_sqrt_inv_mul M hpos) (diag_sqrt_mul_inv M hpos) hPAP

/-- Second pseudo-inverse law for `invertSVD`, exact under the proviso that
every singular value at or below the truncation threshold is exactly zero:
`M @ invertSVD(M) @ M = M`. -/
lemma invertSVD_law2 {n : ℕ} (svd : Matrix (Fin n) (Fin n) ℝ → SVDData n)
    (M : Matrix (Fin n) (Fin n) ℝ) (hsymm : M.transpose = M)
    (hpos : ∀ i, 0 < M i i)
    (hsvd : isSVD (matNormalized M) (svd (matNormalized M)))
    (hz : ∀ l, svdThreshold < (svd (matNormalized M)).S l ∨
      (svd (matNormalized M)).S l = 0) :
    M * invertSVD svd M * M = M := by
  have hAPA := mul_trunc_mul hsvd (matNormalized_symm M hsymm) hz
  have h1 := invertSVD_eq_conj svd M
  have h2 := self_eq_diag_conj_normalized M hpos
  rw [h1]
  conv_lhs => enter [1, 1]; rw [h2]
  conv_lhs => enter [2]; rw [h2]
  conv_rhs => rw [h2]
  exact conj_sandwich_law _ _ _ _ (diag_sqrt_mul_inv M hpos) (diag_sqrt_inv_mul M hpos) hAPA

/-! ### Tolerance semantics of `np.allclose` and a counterexample to the
tolerance form of the second pseudo-inverse law -/

/-- `np.allclose(a, b, rtol, atol)` for matrices:
every entry satisfies `|a - b| ≤ atol + rtol * |b|`. -/
def allclose {n : ℕ} (a b : Matrix (Fin n) (Fin n) ℝ) (rtol atol : ℝ) : Prop :=
  ∀ i j, |a i j - b i j| ≤ atol + rtol * |b i j|

/-- Rescaled 4×4 Hadamard matrix: a rational orthogonal symmetric matrix whose
columns serve as singular vectors in the counterexample. -/
def hadU : Matrix (Fin 4) (Fin 4) ℝ :=
  ![![1/2, 1/2, 1/2, 1/2],
    ![1/2, -1/2, 1/2, -1/2],
    ![1/2, 1/2, -1/2, -1/2],
    ![1/2, -1/2, -1/2, 1/2]]

/-- Singular values `2 ≥ 1 ≥ 1 - 1e-10 ≥ 1e-10`; the last one is at the
truncation threshold (not strictly above it), hence dropped, yet nonzero. -/
def cexS : Fin 4 → ℝ := ![2, 1, 1 - 1e-10, 1e-10]

/-- The SVD triple of the normalized counterexample matrix. -/
def cexData : SVDData 4 := ⟨hadU, cexS, hadU⟩

/-- The counterexample input: a symmetric positive matrix with diagonal `1e12`
whose normalized form has the SVD `hadU · diag cexS · hadU`. -/
def cexM : Matrix (Fin 4) (Fin 4) ℝ :=
  ![![1000000000000, 499999999950, 500000000000, 50],
    ![499999999950, 1000000000000, 50, 500000000000],
    ![500000000000, 50, 1000000000000, 499999999950],
    ![50, 500000000000, 499999999950, 1000000000000]]

/-- `vecTail` of a constant vector (missing companion of
`Matrix.vecCons_const` and `Matrix.head_fin_const`). -/
lemma vecTail_const {α : Type*} {m : ℕ} (a : α) :
    Matrix.vecTail (fun _ : Fin m.succ => a) = fun _ : Fin m => a := rfl

lemma hadU_transpose : hadU.transpose = hadU := by
  ext i j
  fin_cases i <;> fin_cases j <;>
    simp [hadU, Matrix.transpose_apply, vecTail_const, Matrix.head_fin_const]

lemma hadU_mul_self : hadU * hadU = 1 := by
  ext i j
  rw [Matrix.mul_apply, Fin.sum_univ_four]
  fin_cases i <;> fin_cases j <;>
    norm_num [hadU, Matrix.one_apply, vecTail_const, Matrix.head_fin_const] <;>
    simp [Fin.ext_iff, show ((3 : Fin 4) : ℕ) = 3 from rfl]

lemma cexM_normalizer : matNormalizer cexM = fun _ _ => (1000000000000 : ℝ) := by
  have hs : Real.sqrt (1000000000000 : ℝ) = 1000000 := by
    rw [show (1000000000000 : ℝ) = 1000000 ^ 2 by norm_num, Real.sqrt_sq (by norm_num)]
  funext i j
  show Real.sqrt (cexM i i) * Real.sqrt (cexM j j) = _
  have hi : cexM i i = 1000000000000 := by
    fin_cases i <;> norm_num [cexM, vecTail_const, Matrix.head_fin_const]
  have hj : cexM j j = 1000000000000 := by
    fin_cases j <;> norm_num [cexM, vecTail_const, Matrix.head_fin_const]
  rw [hi, hj, hs]
  norm_num

lemma cexM_normalized : matNormalized cexM = hadU * Matrix.diagonal cexS * hadU := by
  funext i j
  show cexM i j / matNormalizer cexM i j = _
  rw [cexM_normalizer]
  rw [Matrix.mul_assoc, Matrix.mul_apply]
  simp only [Fin.sum_univ_four, Matrix.diagonal_mul]
  fin_cases i <;> fin_cases j <;>
    norm_num [cexM, hadU, cexS, vecTail_const, Matrix.head_fin_const]

lemma cexData_isSVD : isSVD (matNormalized cexM) cexData := by
  refine ⟨?_, ?_, ?_, ?_, ?_, ?_, ?_⟩
  · show hadU * hadU.transpose = 1
    rw [hadU_transpose]; exact hadU_mul_self
  · show hadU.transpose * hadU = 1
    rw [hadU_transpose]; exact hadU_mul_self
  · show hadU * hadU.transpose = 1
    rw [hadU_transpose]; exact hadU_mul_self
  · show hadU.transpose * hadU = 1
    rw [hadU_transpose]; exact hadU_mul_self
  · intro l
    fin_cases l <;> norm_num [cexData, cexS, vecTail_const, Matrix.head_fin_const]
  · intro a b hab
    fin_cases a <;> fin_cases b <;>
      first
        | exact le_refl _
        | exact absurd hab (by decide)
        | norm_num [cexData, cexS, vecTail_const, Matrix.head_fin_const]
  · exact cexM_normalized.symm

lemma cexData_kVal : svdKVal cexData = 3 := by
  unfold svdKVal
  rw [Finset.card_filter, Fin.sum_univ_four]
  norm_num [cexData, cexS, svdThreshold, vecTail_const, Matrix.head_fin_const]

/-- The truncated reconstruction of the counterexample, as an explicit
rational matrix. -/
def cexT : Matrix (Fin 4) (Fin 4) ℝ :=
  ![![49999999997/79999999992, 10000000001/79999999992,
      9999999997/79999999992, -29999999999/79999999992],
    ![10000000001/79999999992, 49999999997/79999999992,
      -29999999999/79999999992, 9999999997/79999999992],
    ![9999999997/79999999992, -29999999999/79999999992,
      49999999997/79999999992, 10000000001/79999999992],
    ![-29999999999/79999999992, 9999999997/79999999992,
      10000000001/79999999992, 49999999997/79999999992]]

lemma cex_trunc : svdTruncatedInverse cexData = cexT := by
  funext a b
  unfold svdTruncatedInverse
  rw [cexData_kVal, Fin.sum_univ_four]
  fin_cases a <;> fin_cases b <;>
    norm_num [cexData, hadU, cexS, cexT, vecTail_const, Matrix.head_fin_const,
      show ((3 : Fin 4) : ℕ) = 3 from rfl]

lemma cex_invertSVD :
    invertSVD (fun _ => cexData) cexM = fun i j => cexT i j / 1000000000000 := by
  funext i j
  show svdTruncatedInverse cexData i j / matNormalizer cexM i j = _
  rw [cex_trunc, cexM_normalizer]

lemma cexM_symm : cexM.transpose = cexM := by
  ext i j
  fin_cases i <;> fin_cases j <;>
    norm_num [cexM, Matrix.transpose_apply, vecTail_const, Matrix.head_fin_const]

lemma cexM_posdiag : ∀ i, 0 < cexM i i := by
  intro i
  fin_cases i <;> norm_num [cexM, vecTail_const, Matrix.head_fin_const]

/-- Entry `(0,3)` of `cexM @ invertSVD(cexM) @ cexM` evaluates to `25`, while
`cexM 0 3 = 50`: an absolute error of `25` against an `np.allclose` allowance
of `0.1 + 0.01 * 50 = 0.6`. -/
lemma cex_entry :
    (cexM * invertSVD (fun _ => cexData) cexM * cexM) 0 3 = 25 := by
  rw [cex_invertSVD]
  simp only [Matrix.mul_apply, Fin.sum_univ_four]
  norm_num [cexM, cexT, vecTail_const, Matrix.head_fin_const]

lemma cexM_entry03 : cexM 0 3 = 50 := by
  norm_num [cexM, vecTail_const, Matrix.head_fin_const]

/-! ### A concrete valid SVD of the 2×2 identity, for witnesses -/

/-- The trivial SVD triple of the 2×2 identity matrix. -/
def idSVD2 : SVDData 2 := ⟨1, ![1, 1], 1⟩

lemma matNormalized_one : matNormalized (1 : Matrix (Fin 2) (Fin 2) ℝ) = 1 := by
  funext i j
  show (1 : Matrix (Fin 2) (Fin 2) ℝ) i j / matNormalizer 1 i j = _
  unfold matNormalizer
  by_cases h : i = j
  · subst h
    simp [Matrix.one_apply_eq]
  · rw [Matrix.one_apply_ne h]
    simp

lemma idSVD2_S_const : ((![1, 1] : Fin 2 → ℝ)) = fun _ => (1 : ℝ) := by
  funext l
  fin_cases l <;> rfl

lemma idSVD2_isSVD : isSVD (matNormalized (1 : Matrix (Fin 2) (Fin 2) ℝ)) idSVD2 := by
  rw [matNormalized_one]
  refine ⟨?_, ?_, ?_, ?_, ?_, ?_, ?_⟩
  · show (1 : Matrix (Fin 2) (Fin 2) ℝ) * (1 : Matrix (Fin 2) (Fin 2) ℝ).transpose = 1
    rw [Matrix.transpose_one, Matrix.one_mul]
  · show (1 : Matrix (Fin 2) (Fin 2) ℝ).transpose * 1 = 1
    rw [Matrix.transpose_one, Matrix.one_mul]
  · show (1 : Matrix (Fin 2) (Fin 2) ℝ) * (1 : Matrix (Fin 2) (Fin 2) ℝ).transpose = 1
    rw [Matrix.transpose_one, Matrix.one_mul]
  · show (1 : Matrix (Fin 2) (Fin 2) ℝ).transpose * 1 = 1
    rw [Matrix.transpose_one, Matrix.one_mul]
  · intro l
    fin_cases l <;> norm_num [idSVD2]
  · intro a b _
    fin_cases a <;> fin_cases b <;> exact le_refl _
  · show (1 : Matrix (Fin 2) (Fin 2) ℝ) * Matrix.diagonal ![1, 1] * 1 = 1
    rw [Matrix.one_mul, Matrix.mul_one, idSVD2_S_const, Matrix.diagonal_one]

lemma idSVD2_S_above : ∀ l, svdThreshold < idSVD2.S l := by
  intro l
  fin_cases l <;> norm_num [idSVD2, svdThreshold]

/-! ### Claim C6 -/

/-- C6 counterexample: the claim "for every symmetric matrix M the
pseudo-inverse idempotence laws hold within tolerance atol=1e-1, rtol=1e-2"
fails on the code.  `cexM` is symmetric (even positive-definite, diagonal
`1e12`), the oracle `fun _ => cexData` is a genuine SVD of its normalized
form, yet entry `(0,3)` of `cexM @ invertSVD(cexM) @ cexM` is `25` against
`cexM 0 3 = 50`, exceeding the allowance `0.1 + 0.01·50 = 0.6`: the second
idempotence law fails far outside the stated tolerance. -/
theorem C6_counterexample :
    cexM.transpose = cexM ∧ (∀ i, 0 < cexM i i) ∧
    isSVD (matNormalized cexM) ((fun _ => cexData) (matNormalized cexM)) ∧
    ¬ allclose (cexM * invertSVD (fun _ => cexData) cexM * cexM) cexM (1/100) (1/10) := by
  refine ⟨cexM_symm, cexM_posdiag, cexData_isSVD, ?_⟩
  intro h
  have h03 := h 0 3
  rw [cex_entry, cexM_entry03] at h03
  rw [show (25 : ℝ) - 50 = -25 by norm_num, abs_neg] at h03
  rw [abs_of_nonneg (by norm_num : (0:ℝ) ≤ 25), abs_of_nonneg (by norm_num : (0:ℝ) ≤ 50)] at h03
  norm_num at h03

/-- C6 amended: for every symmetric `M` with strictly positive diagonal and a
valid SVD of its normalized form, the first idempotence law
`invertSVD(M) @ M @ invertSVD(M) = invertSVD(M)` holds exactly (hence within
any tolerance), and the second law `M @ invertSVD(M) @ M = M` holds exactly
provided every singular value at or below the `1e-10` truncation threshold is
exactly zero; without that proviso the second law can fail the stated
tolerance. -/
theorem C6_amended :
    (∀ (n : ℕ) (svd : Matrix (Fin n) (Fin n) ℝ → SVDData n)
      (M : Matrix (Fin n) (Fin n) ℝ),
      M.transpose = M → (∀ i, 0 < M i i) →
      isSVD (matNormalized M) (svd (matNormalized M)) →
      invertSVD svd M * M * invertSVD svd M = invertSVD svd M) ∧
    (∀ (n : ℕ) (svd : Matrix (Fin n) (Fin n) ℝ → SVDData n)
      (M : Matrix (Fin n) (Fin n) ℝ),
      M.transpose = M → (∀ i, 0 < M i i) →
      isSVD (matNormalized M) (svd (matNormalized M)) →
      (∀ l, svdThreshold < (svd (matNormalized M)).S l ∨
        (svd (matNormalized M)).S l = 0) →
      M * invertSVD svd M * M = M) :=
  ⟨fun _ svd M hsymm hpos hsvd => invertSVD_law1 svd M hsymm hpos hsvd,
   fun _ svd M hsymm hpos hsvd hz => invertSVD_law2 svd M hsymm hpos hsvd hz⟩

/-- C6 witness: both amended laws, instantiated at the 2×2 identity matrix
with its trivial SVD. -/
theorem C6_witness :
    invertSVD (fun _ => idSVD2) (1 : Matrix (Fin 2) (Fin 2) ℝ) * 1 *
      invertSVD (fun _ => idSVD2) 1 = invertSVD (fun _ => idSVD2) 1 ∧
    (1 : Matrix (Fin 2) (Fin 2) ℝ) * invertSVD (fun _ => idSVD2) 1 * 1 = 1 :=
  ⟨C6_amended.1 2 (fun _ => idSVD2) 1 Matrix.transpose_one
      (fun i => by rw [Matrix.one_apply_eq]; norm_num) idSVD2_isSVD,
   C6_amended.2 2 (fun _ => idSVD2) 1 Matrix.transpose_one
      (fun i => by rw [Matrix.one_apply_eq]; norm_num) idSVD2_isSVD
      (fun l => Or.inl (idSVD2_S_above l))⟩

/-! ### Claim C1: the concrete example `invertSVD([[1,3],[3,4]])` -/

/-- The test matrix `M = [[1, 3], [3, 4]]` of `test_matrix_inversion`. -/
def exampleM : Matrix (Fin 2) (Fin 2) ℝ := ![![1, 3], ![3, 4]]

/-- The expected inverse `[[-4/5, 3/5], [3/5, -1/5]]` (≈ `[[-0.8, 0.6], [0.6, -0.2]]`). -/
def exampleInverse : Matrix (Fin 2) (Fin 2) ℝ := ![![-4/5, 3/5], ![3/5, -1/5]]

/-- The normalized form of `exampleM`: `[[1, 3/2], [3/2, 1]]`. -/
def exA0 : Matrix (Fin 2) (Fin 2) ℝ := ![![1, 3/2], ![3/2, 1]]

/-- The normalized pseudo-inverse of `exA0`, i.e. its genuine inverse. -/
def exB0 : Matrix (Fin 2) (Fin 2) ℝ := ![![-4/5, 6/5], ![6/5, -4/5]]

def invSqrt2 : ℝ := (Real.sqrt 2)⁻¹

/-- An explicit valid SVD of `exA0`: singular values `5/2 ≥ 1/2` with
Hadamard-type singular vectors. -/
def exData : SVDData 2 :=
  ⟨![![invSqrt2, invSqrt2], ![invSqrt2, -invSqrt2]],
   ![5/2, 1/2],
   ![![invSqrt2, invSqrt2], ![-invSqrt2, invSqrt2]]⟩

lemma invSqrt2_sq : invSqrt2 * invSqrt2 = 1/2 := by
  unfold invSqrt2
  rw [← mul_inv]
  rw [Real.mul_self_sqrt (by norm_num : (0:ℝ) ≤ 2)]
  norm_num

lemma exampleM_normalized : matNormalized exampleM = exA0 := by
  have hs1 : Real.sqrt (1 : ℝ) = 1 := Real.sqrt_one
  have hs4 : Real.sqrt (4 : ℝ) = 2 := by
    rw [show (4 : ℝ) = 2 ^ 2 by norm_num, Real.sqrt_sq (by norm_num)]
  funext i j
  show exampleM i j / matNormalizer exampleM i j = _
  unfold matNormalizer
  fin_cases i <;> fin_cases j <;>
    norm_num [exampleM, exA0, vecTail_const, Matrix.head_fin_const, hs1, hs4]

lemma exA0_symm : exA0.transpose = exA0 := by
  ext i j
  fin_cases i <;> fin_cases j <;>
    norm_num [exA0, Matrix.transpose_apply, vecTail_const, Matrix.head_fin_const]

lemma exA0_mul_exB0 : exA0 * exB0 = 1 := by
  ext i j
  rw [Matrix.mul_apply, Fin.sum_univ_two]
  fin_cases i <;> fin_cases j <;>
    norm_num [exA0, exB0, Matrix.one_apply, vecTail_const, Matrix.head_fin_const]

lemma exData_isSVD : isSVD (matNormalized exampleM) exData := by
  rw [exampleM_normalized]
  have hsq2 : invSqrt2 ^ 2 = 1/2 := by rw [sq]; exact invSqrt2_sq
  refine ⟨?_, ?_, ?_, ?_, ?_, ?_, ?_⟩
  · ext i j
    rw [Matrix.mul_apply, Fin.sum_univ_two]
    fin_cases i <;> fin_cases j <;>
      simp only [exData, Matrix.transpose_apply, Matrix.cons_val_zero, Matrix.cons_val_one,
        Matrix.head_cons, Matrix.one_apply, Fin.isValue] <;>
      norm_num [hsq2] <;> (ring_nf; norm_num [hsq2])
  · ext i j
    rw [Matrix.mul_apply, Fin.sum_univ_two]
    fin_cases i <;> fin_cases j <;>
      simp only [exData, Matrix.transpose_apply, Matrix.cons_val_zero, Matrix.cons_val_one,
        Matrix.head_cons, Matrix.one_apply, Fin.isValue] <;>
      norm_num [hsq2] <;> (ring_nf; norm_num [hsq2])
  · ext i j
    rw [Matrix.mul_apply, Fin.sum_univ_two]
    fin_cases i <;> fin_cases j <;>
      simp only [exData, Matrix.transpose_apply, Matrix.cons_val_zero, Matrix.cons_val_one,
        Matrix.head_cons, Matrix.one_apply, Fin.isValue] <;>
      norm_num [hsq2] <;> (ring_nf; norm_num [hsq2])
  · ext i j
    rw [Matrix.mul_apply, Fin.sum_univ_two]
    fin_cases i <;> fin_cases j <;>
      simp only [exData, Matrix.transpose_apply, Matrix.cons_val_zero, Matrix.cons_val_one,
        Matrix.head_cons, Matrix.one_apply, Fin.isValue] <;>
      norm_num [hsq2] <;> (ring_nf; norm_num [hsq2])
  · intro l
    fin_cases l <;> norm_num [exData]
  · intro a b hab
    fin_cases a <;> fin_cases b <;>
      first
        | exact le_refl _
        | exact absurd hab (by decide)
        | norm_num [exData]
  · ext i j
    rw [Matrix.mul_assoc, Matrix.mul_apply]
    simp only [Fin.sum_univ_two, Matrix.diagonal_mul]
    fin_cases i <;> fin_cases j <;>
      simp only [exData, exA0, Matrix.cons_val_zero, Matrix.cons_val_one,
        Matrix.head_cons, Fin.isValue] <;>
      norm_num [hsq2] <;> (ring_nf; norm_num [hsq2])

/-- Any valid SVD returned by the oracle inverts `exampleM` to exactly
`[[-4/5, 3/5], [3/5, -1/5]]`: the singular values of the normalized matrix are
forced to be `5/2` and `1/2`, both above the threshold, so the truncated
reconstruction is the genuine inverse of the normalized matrix. -/
lemma exampleM_invertSVD (svd2 : Matrix (Fin 2) (Fin 2) ℝ → SVDData 2)
    (hsvd : isSVD (matNormalized exampleM) (svd2 (matNormalized exampleM))) :
    invertSVD svd2 exampleM = exampleInverse := by
  set d := svd2 (matNormalized exampleM) with hd
  obtain ⟨hU1, hU2, hV1, hV2, hS0, hSa, hrec⟩ := hsvd
  rw [exampleM_normalized] at hrec
  -- product of the singular values is 5/4
  have hdetU : Matrix.det d.U * Matrix.det d.U = 1 := by
    have h := congrArg Matrix.det hU1
    rwa [Matrix.det_mul, Matrix.det_transpose, Matrix.det_one] at h
  have hdetV : Matrix.det d.Vh * Matrix.det d.Vh = 1 := by
    have h := congrArg Matrix.det hV1
    rwa [Matrix.det_mul, Matrix.det_transpose, Matrix.det_one] at h
  have hdetA : Matrix.det exA0 = -(5/4) := by
    rw [Matrix.det_fin_two]
    norm_num [exA0, vecTail_const, Matrix.head_fin_const]
  have hdet : Matrix.det d.U * (d.S 0 * d.S 1) * Matrix.det d.Vh = -(5/4) := by
    have h := congrArg Matrix.det hrec
    rwa [Matrix.det_mul, Matrix.det_mul, Matrix.det_diagonal, Fin.prod_univ_two,
      hdetA] at h
  have hprodsq : (d.S 0 * d.S 1) * (d.S 0 * d.S 1) = (5/4) * (5/4) := by
    have h2 : (Matrix.det d.U * (d.S 0 * d.S 1) * Matrix.det d.Vh) *
        (Matrix.det d.U * (d.S 0 * d.S 1) * Matrix.det d.Vh) = (5/4) * (5/4) := by
      rw [hdet]; norm_num
    calc (d.S 0 * d.S 1) * (d.S 0 * d.S 1)
        = (Matrix.det d.U * Matrix.det d.U) * ((d.S 0 * d.S 1) * (d.S 0 * d.S 1)) *
            (Matrix.det d.Vh * Matrix.det d.Vh) := by rw [hdetU, hdetV]; ring
      _ = (Matrix.det d.U * (d.S 0 * d.S 1) * Matrix.det d.Vh) *
            (Matrix.det d.U * (d.S 0 * d.S 1) * Matrix.det d.Vh) := by ring
      _ = (5/4) * (5/4) := h2
  have hprod : d.S 0 * d.S 1 = 5/4 := by
    rcases mul_self_eq_mul_self_iff.mp hprodsq with h | h
    · exact h
    · exfalso
      have hnn : 0 ≤ d.S 0 * d.S 1 := mul_nonneg (hS0 0) (hS0 1)
      rw [h] at hnn
      norm_num at hnn
  -- sum of the squared singular values is 13/2
  have hAtA : exA0.transpose * exA0 =
      d.Vh.transpose * Matrix.diagonal (fun l => d.S l * d.S l) * d.Vh := by
    conv_lhs => rw [← hrec]
    rw [Matrix.transpose_mul, Matrix.transpose_mul, Matrix.diagonal_transpose]
    simp only [Matrix.mul_assoc]
    rw [← Matrix.mul_assoc d.U.transpose d.U, hU2, Matrix.one_mul]
    rw [← Matrix.mul_assoc (Matrix.diagonal d.S) (Matrix.diagonal d.S),
      Matrix.diagonal_mul_diagonal]
  have htr : d.S 0 * d.S 0 + d.S 1 * d.S 1 = 13/2 := by
    have h1 : Matrix.trace (exA0.transpose * exA0) = 13/2 := by
      rw [Matrix.trace_fin_two]
      simp only [Matrix.mul_apply, Fin.sum_univ_two, Matrix.transpose_apply]
      norm_num [exA0, vecTail_const, Matrix.head_fin_const]
    rw [hAtA, Matrix.trace_mul_cycle, hV1, Matrix.one_mul, Matrix.trace_diagonal,
      Fin.sum_univ_two] at h1
    exact h1
  -- both singular values exceed the truncation threshold
  have hS1thr : svdThreshold < d.S 1 := by
    have h0 := hS0 0
    have h1 := hS0 1
    have hb : d.S 0 ≤ 3 := by nlinarith [htr, mul_self_nonneg (d.S 1)]
    have hlb : 5/12 ≤ d.S 1 := by nlinarith [hprod, hb, h0, h1]
    have : svdThreshold < 5/12 := by norm_num [svdThreshold]
    linarith
  have hS0thr : svdThreshold < d.S 0 :=
    lt_of_lt_of_le hS1thr (hSa (by decide : (0 : Fin 2) ≤ 1))
  -- hence nothing is truncated and `P` is a genuine two-sided inverse
  have hSthr : ∀ l, svdThreshold < d.S l := by
    intro l
    fin_cases l
    · exact hS0thr
    · exact hS1thr
  have hP : svdTruncatedInverse d =
      d.U * Matrix.diagonal (fun l => 1 / d.S l) * d.Vh := by
    rw [svdTruncatedInverse_eq d hSa]
    have hm : maskedInv d = fun l => 1 / d.S l := by
      funext l
      unfold maskedInv
      rw [if_pos (hSthr l)]
    rw [hm]
  have hform : exA0 = d.Vh.transpose * Matrix.diagonal d.S * d.U.transpose := by
    calc exA0 = exA0.transpose := exA0_symm.symm
      _ = (d.U * Matrix.diagonal d.S * d.Vh).transpose := by rw [hrec]
      _ = d.Vh.transpose * Matrix.diagonal d.S * d.U.transpose := by
          rw [Matrix.transpose_mul, Matrix.transpose_mul, Matrix.diagonal_transpose,
            Matrix.mul_assoc]
  have hPA : svdTruncatedInverse d * exA0 = 1 := by
    rw [hP]
    conv_lhs => enter [2]; rw [hform]
    simp only [Matrix.mul_assoc]
    rw [← Matrix.mul_assoc d.Vh d.Vh.transpose, hV1, Matrix.one_mul]
    rw [← Matrix.mul_assoc (Matrix.diagonal fun l => 1 / d.S l) (Matrix.diagonal d.S),
      Matrix.diagonal_mul_diagonal]
    have hgS : (fun l => 1 / d.S l * d.S l) = fun _ => (1 : ℝ) := by
      funext l
      exact one_div_mul_cancel (ne_of_gt (lt_trans svdThreshold_pos (hSthr l)))
    rw [hgS, Matrix.diagonal_one, Matrix.one_mul, hU1]
  have hPB : svdTruncatedInverse d = exB0 := by
    calc svdTruncatedInverse d
        = svdTruncatedInverse d * (exA0 * exB0) := by rw [exA0_mul_exB0, Matrix.mul_one]
      _ = (svdTruncatedInverse d * exA0) * exB0 := by rw [Matrix.mul_assoc]
      _ = exB0 := by rw [hPA, Matrix.one_mul]
  -- divide by the normalizer
  have hs1 : Real.sqrt (1 : ℝ) = 1 := Real.sqrt_one
  have hs4 : Real.sqrt (4 : ℝ) = 2 := by
    rw [show (4 : ℝ) = 2 ^ 2 by norm_num, Real.sqrt_sq (by norm_num)]
  funext i j
  show svdTruncatedInverse d i j / matNormalizer exampleM i j = exampleInverse i j
  rw [hPB]
  unfold matNormalizer
  fin_cases i <;> fin_cases j <;>
    norm_num [exB0, exampleInverse, exampleM, vecTail_const, Matrix.head_fin_const,
      hs1, hs4]

/-- C1: for every square symmetric positive-semidefinite matrix `M` with
strictly positive diagonal, `invertSVD(M)` equals the matrix obtained by the
spec-side pipeline (normalize by `outer(d,d)` with `d_i = sqrt(M_ii)`, SVD,
retain singular values `> 1e-10`, reconstruct `U[:,:k]·diag(1/S[:k])·Vᵗ[:k,:]`,
divide element-wise by `outer(d,d)`); and in particular for the test matrix
`[[1,3],[3,4]]`: the exhibited `exData` is a genuine SVD of its normalized
form, and for every SVD oracle that is valid there,
`invertSVD([[1,3],[3,4]]) = [[-4/5, 3/5], [3/5, -1/5]]` exactly
(≈ `[[-0.8, 0.6], [0.6, -0.2]]`). -/
theorem C1_invertSVD_spec_and_example :
    (∀ (n : ℕ) (svd : Matrix (Fin n) (Fin n) ℝ → SVDData n)
      (M : Matrix (Fin n) (Fin n) ℝ),
      M.transpose = M → (∀ x : Fin n → ℝ, 0 ≤ Matrix.dotProduct x (M.mulVec x)) →
      (∀ i, 0 < M i i) →
      invertSVD svd M = specPseudoInverse svd M) ∧
    isSVD (matNormalized exampleM) exData ∧
    (∀ svd2 : Matrix (Fin 2) (Fin 2) ℝ → SVDData 2,
      isSVD (matNormalized exampleM) (svd2 (matNormalized exampleM)) →
      invertSVD svd2 exampleM = exampleInverse) :=
  ⟨fun _ _ _ _ _ _ => rfl, exData_isSVD, exampleM_invertSVD⟩

/-- C1 witness: the pipeline equality applied at the 2×2 identity (symmetric,
positive semidefinite, positive diagonal), and the concrete example applied
with the exhibited SVD `exData` as the oracle. -/
theorem C1_witness :
    invertSVD (fun _ => idSVD2) (1 : Matrix (Fin 2) (Fin 2) ℝ) =
      specPseudoInverse (fun _ => idSVD2) 1 ∧
    invertSVD (fun _ => exData) exampleM = exampleInverse :=
  ⟨C1_invertSVD_spec_and_example.1 2 (fun _ => idSVD2) 1 Matrix.transpose_one
      (fun x => by
        rw [Matrix.one_mulVec]
        exact Finset.sum_nonneg fun i _ => mul_self_nonneg (x i))
      (fun i => by rw [Matrix.one_apply_eq]; norm_num),
   C1_invertSVD_spec_and_example.2.2 (fun _ => exData)
      C1_invertSVD_spec_and_example.2.1⟩

/-! ### NaN-aware model of `invertSVD` (claim C3)

IEEE special values are modelled with `Option ℝ`: `none` stands for any
non-finite value (NaN or ±inf).  `np.sqrt` of a negative number is NaN;
division by a zero normalizer gives NaN (`0/0`) or ±inf (`x/0`); and
`np.linalg.svd` raises `LinAlgError` when its input contains non-finite
entries, which is how the Python `invertSVD` signals failure. -/

/-- `np.sqrt`: NaN (`none`) on negative input. -/
def osqrt (x : ℝ) : Option ℝ := if x < 0 then none else some (Real.sqrt x)

/-- Float division: non-finite (`none`) when the denominator is zero. -/
def odiv (x y : ℝ) : Option ℝ := if y = 0 then none else some (x / y)

/-- Multiplication with NaN propagation. -/
def omul (a b : Option ℝ) : Option ℝ := a.bind fun x => b.map fun y => x * y

/-- The element-wise normalized matrix with non-finite propagation. -/
def matNormalizedF {n : ℕ} (M : Matrix (Fin n) (Fin n) ℝ) :
    Fin n → Fin n → Option ℝ :=
  fun i j => (omul (osqrt (M i i)) (osqrt (M j j))).bind fun w => odiv (M i j) w

/-- Fallible `invertSVD`: `np.linalg.svd` raises `LinAlgError` when some entry
of the normalized matrix is not finite; otherwise the computation proceeds as
in the pure embedding. -/
def invertSVDF {n : ℕ} (svd : Matrix (Fin n) (Fin n) ℝ → SVDData n)
    (M : Matrix (Fin n) (Fin n) ℝ) : Except String (Matrix (Fin n) (Fin n) ℝ) :=
  if ∀ i j, (matNormalizedF M i j).isSome then
    Except.ok (invertSVD svd M)
  else
    Except.error "LinAlgError"

/-- A matrix with a non-positive diagonal entry makes `invertSVDF` fail. -/
lemma invertSVDF_error {n : ℕ} (svd : Matrix (Fin n) (Fin n) ℝ → SVDData n)
    (M : Matrix (Fin n) (Fin n) ℝ) (h : ∃ i, M i i ≤ 0) :
    invertSVDF svd M = Except.error "LinAlgError" := by
  obtain ⟨i, hi⟩ := h
  unfold invertSVDF
  rw [if_neg]
  intro hall
  have hii := hall i i
  rcases lt_or_eq_of_le hi with hlt | heq
  · unfold matNormalizedF osqrt at hii
    rw [if_pos hlt] at hii
    simp [omul] at hii
  · unfold matNormalizedF osqrt at hii
    rw [if_neg (by rw [heq]; exact lt_irrefl _)] at hii
    rw [heq] at hii
    simp [omul, odiv, Real.sqrt_zero] at hii

/-! ### Network Error Aggregator — `compute_fisher_errors` -/

/-- A detector as seen by the aggregator: per-signal SNR and Fisher matrix,
populated externally before the aggregation runs. -/
structure NetDetector (ns np : ℕ) where
  SNR : Fin ns → ℝ
  fisher_matrix : Fin ns → Matrix (Fin np) (Fin np) ℝ

/-- A detector network: an indexed family of detectors and the pair
`detection_SNR = (per-detector inclusion threshold, network detection
threshold)`. -/
structure Network (nd ns np : ℕ) where
  detectors : Fin nd → NetDetector ns np
  detection_SNR : ℝ × ℝ

/-- `network_snr = np.sqrt(sum(detector.SNR**2 for detector in detectors))`. -/
def networkSNR {ns np : ℕ} (dets : List (NetDetector ns np)) : Fin ns → ℝ :=
  fun k => Real.sqrt ((dets.map fun δ => δ.SNR k ^ 2).sum)

/-- The per-signal network Fisher matrix accumulation of
`compute_fisher_errors`: detector contributions are added exactly when the
detector SNR strictly exceeds the per-detector inclusion threshold. -/
def networkFisherMatrix {ns np : ℕ} (dets : List (NetDetector ns np))
    (detector_snr_thr : ℝ) (k : Fin ns) : Matrix (Fin np) (Fin np) ℝ :=
  (dets.map fun δ => if detector_snr_thr < δ.SNR k then δ.fisher_matrix k else 0).sum

/-- `np.where(network_snr > network_snr_thr)[0]`, in ascending index order. -/
def detectedIndices {ns : ℕ} (netsnr : Fin ns → ℝ) (thr : ℝ) : List (Fin ns) :=
  (List.finRange ns).filter fun k => thr < netsnr k

/-- Shallow embedding of `sky_localization_area` from
`refactoring_4/fishermatrix.py` (lines 129–147). -/
def sky_localization_area {np : ℕ}
    (network_fisher_inverse : Matrix (Fin np) (Fin np) ℝ)
    (declination_angle : ℝ)
    (right_ascension_index declination_index : Fin np) : ℝ :=
  Real.pi * |Real.cos declination_angle| *
    Real.sqrt
      (network_fisher_inverse right_ascension_index right_ascension_index *
        network_fisher_inverse declination_index declination_index -
        network_fisher_inverse right_ascension_index declination_index ^ 2)

/-- Shallow embedding of `compute_fisher_errors` from
`refactoring_4/fishermatrix.py` (lines 150–221), idealized to the case where
every inversion is defined (see `compute_fisher_errorsF` for the fallible
version).  The dataframe `parameter_values` enters only through its length
(the type-level `ns`) and its `"dec"` column, modelled as `decv`. -/
def compute_fisher_errors {nd ns : ℕ} (fp : List String)
    (svd : Matrix (Fin fp.length) (Fin fp.length) ℝ → SVDData fp.length)
    (network : Network nd ns fp.length) (decv : Fin ns → ℝ)
    (sub_network_ids : List (Fin nd)) :
    List ℝ × List (Fin fp.length → ℝ) × Option (List ℝ) :=
  let dets := sub_network_ids.map network.detectors
  let nsnr := networkSNR dets
  let inv := fun k =>
    invertSVD svd (networkFisherMatrix dets network.detection_SNR.1 k)
  let errs := fun k => fun i => Real.sqrt (inv k i i)
  let detected := detectedIndices nsnr network.detection_SNR.2
  let sky :=
    if h : "ra" ∈ fp ∧ "dec" ∈ fp then
      some (detected.map fun k =>
        sky_localization_area (inv k) (decv k)
          ⟨fp.indexOf "ra", List.indexOf_lt_length.mpr h.1⟩
          ⟨fp.indexOf "dec", List.indexOf_lt_length.mpr h.2⟩)
    else none
  (detected.map nsnr, detected.map errs, sky)

/-- Fallible `compute_fisher_errors`: the two asserts, then the per-signal
loop in which each network Fisher matrix is inverted via the fallible matrix
conditioner; any failure aborts the whole call. -/
def compute_fisher_errorsF {nd ns : ℕ} (fp : List String)
    (svd : Matrix (Fin fp.length) (Fin fp.length) ℝ → SVDData fp.length)
    (network : Network nd ns fp.length) (decv : Fin ns → ℝ)
    (sub_network_ids : List (Fin nd)) :
    Except String (List ℝ × List (Fin fp.length → ℝ) × Option (List ℝ)) :=
  if 0 < fp.length ∧ 0 < ns then
    if ∀ k : Fin ns,
        (invertSVDF svd
          (networkFisherMatrix (sub_network_ids.map network.detectors)
            network.detection_SNR.1 k)).isOk then
      Except.ok (compute_fisher_errors fp svd network decv sub_network_ids)
    else Except.error "LinAlgError"
  else Except.error "AssertionError"

/-- Summing a conditionally-included list equals summing the filtered list. -/
lemma sum_map_ite_eq_sum_filter {α M : Type*} [AddCommMonoid M] (l : List α)
    (p : α → Prop) [DecidablePred p] (f : α → M) :
    (l.map fun a => if p a then f a else 0).sum =
      ((l.filter fun a => p a).map f).sum := by
  induction l with
  | nil => rfl
  | cons a t ih =>
    by_cases h : p a
    · rw [List.map_cons, List.sum_cons, if_pos h, List.filter_cons,
        if_pos (by simpa using h), List.map_cons, List.sum_cons, ih]
    · rw [List.map_cons, List.sum_cons, if_neg h, List.filter_cons,
        if_neg (by simpa using h), ih, zero_add]

/-! ### Concrete networks for witnesses -/

/-- The trivial SVD triple of a 1×1 matrix. -/
def idSVD1 : SVDData 1 := ⟨1, ![1], 1⟩

/-- A one-signal detector with SNR 10 and identity Fisher matrix. -/
def wDet : NetDetector 1 1 := ⟨fun _ => 10, fun _ => 1⟩

/-- A one-signal detector with SNR 0. -/
def wDetLow : NetDetector 1 1 := ⟨fun _ => 0, fun _ => 1⟩

/-- A single-detector network with `detection_SNR = (1, 8)`. -/
def wNet : Network 1 1 1 := ⟨fun _ => wDet, (1, 8)⟩

/-- The same network but with the quiet detector. -/
def wNetLow : Network 1 1 1 := ⟨fun _ => wDetLow, (1, 8)⟩

/-- A single-detector network with two Fisher parameters. -/
def wNet2 : Network 1 1 2 := ⟨fun _ => ⟨fun _ => 10, fun _ => 1⟩, (1, 8)⟩

/-! ### Claim C2 -/

/-- C2: in `compute_fisher_errors`, a detector's Fisher matrix is added into
the network Fisher matrix for signal `k` exactly when its SNR strictly
exceeds the first element of `detection_SNR` (the network Fisher matrix
equals the sum over the so-filtered detector list); the returned arrays are
exactly the per-signal network SNRs and error vectors restricted to the
signals whose network SNR `sqrt(Σ_d SNR_d(k)²)` strictly exceeds the second
element (membership in the detected index list is equivalent to strictly
exceeding it); in particular a signal at or below the network threshold never
appears among the returned indices. -/
theorem C2_threshold_semantics {nd ns : ℕ} (fp : List String)
    (svd : Matrix (Fin fp.length) (Fin fp.length) ℝ → SVDData fp.length)
    (network : Network nd ns fp.length) (decv : Fin ns → ℝ)
    (sub_network_ids : List (Fin nd)) :
    (∀ k : Fin ns,
      networkFisherMatrix (sub_network_ids.map network.detectors)
          network.detection_SNR.1 k =
        ((sub_network_ids.filter fun d =>
            network.detection_SNR.1 < (network.detectors d).SNR k).map
          fun d => (network.detectors d).fisher_matrix k).sum) ∧
    ((compute_fisher_errors fp svd network decv sub_network_ids).1 =
      (detectedIndices (networkSNR (sub_network_ids.map network.detectors))
          network.detection_SNR.2).map
        (networkSNR (sub_network_ids.map network.detectors))) ∧
    ((compute_fisher_errors fp svd network decv sub_network_ids).2.1 =
      (detectedIndices (networkSNR (sub_network_ids.map network.detectors))
          network.detection_SNR.2).map
        fun k => fun i => Real.sqrt
          (invertSVD svd
            (networkFisherMatrix (sub_network_ids.map network.detectors)
              network.detection_SNR.1 k) i i)) ∧
    (∀ k : Fin ns,
      k ∈ detectedIndices (networkSNR (sub_network_ids.map network.detectors))
          network.detection_SNR.2 ↔
        network.detection_SNR.2 <
          networkSNR (sub_network_ids.map network.detectors) k) ∧
    (∀ k : Fin ns,
      ¬ network.detection_SNR.2 <
          networkSNR (sub_network_ids.map network.detectors) k →
      k ∉ detectedIndices (networkSNR (sub_network_ids.map network.detectors))
          network.detection_SNR.2) := by
  refine ⟨?_, rfl, rfl, ?_, ?_⟩
  · intro k
    unfold networkFisherMatrix
    rw [List.map_map]
    exact sum_map_ite_eq_sum_filter sub_network_ids
      (fun d => network.detection_SNR.1 < (network.detectors d).SNR k)
      (fun d => (network.detectors d).fisher_matrix k)
  · intro k
    unfold detectedIndices
    simp only [List.mem_filter, List.mem_finRange, decide_eq_true_eq, true_and]
  · intro k hk
    unfold detectedIndices
    simp only [List.mem_filter, decide_eq_true_eq]
    intro hmem
    exact hk hmem.2

/-- C2 witness: a signal whose network SNR (0) is below the network threshold
(8) is not among the detected indices. -/
theorem C2_witness :
    (0 : Fin 1) ∉ detectedIndices
      (networkSNR ((([0] : List (Fin 1))).map wNetLow.detectors))
      wNetLow.detection_SNR.2 :=
  (C2_threshold_semantics ["m"] (fun _ => idSVD1) wNetLow (fun _ => 0) [0]).2.2.2.2 0
    (by
      norm_num [networkSNR, wNetLow, wDetLow])

/-! ### Claim C5 -/

/-- C5: `compute_fisher_errors` returns a sky-localization array exactly when
both `"ra"` and `"dec"` are among the Fisher parameters (`none` otherwise);
when present, the value for every kept signal `k` is
`π · |cos dec_k| · sqrt(Inv[ra,ra]·Inv[dec,dec] − Inv[ra,dec]²)` computed from
the network Fisher inverse at the first indices of `"ra"` and `"dec"`; and
concretely `sky_localization_area [[4,1],[1,9]] 0 0 1 = π·sqrt 35`. -/
theorem C5_sky_localization {nd ns : ℕ} (fp : List String)
    (svd : Matrix (Fin fp.length) (Fin fp.length) ℝ → SVDData fp.length)
    (network : Network nd ns fp.length) (decv : Fin ns → ℝ)
    (sub_network_ids : List (Fin nd)) :
    (((compute_fisher_errors fp svd network decv sub_network_ids).2.2).isSome ↔
      ("ra" ∈ fp ∧ "dec" ∈ fp)) ∧
    (∀ h : "ra" ∈ fp ∧ "dec" ∈ fp,
      (compute_fisher_errors fp svd network decv sub_network_ids).2.2 =
        some ((detectedIndices
            (networkSNR (sub_network_ids.map network.detectors))
            network.detection_SNR.2).map fun k =>
          Real.pi * |Real.cos (decv k)| *
            Real.sqrt
              (invertSVD svd (networkFisherMatrix
                  (sub_network_ids.map network.detectors)
                  network.detection_SNR.1 k)
                  ⟨fp.indexOf "ra", List.indexOf_lt_length.mpr h.1⟩
                  ⟨fp.indexOf "ra", List.indexOf_lt_length.mpr h.1⟩ *
                invertSVD svd (networkFisherMatrix
                  (sub_network_ids.map network.detectors)
                  network.detection_SNR.1 k)
                  ⟨fp.indexOf "dec", List.indexOf_lt_length.mpr h.2⟩
                  ⟨fp.indexOf "dec", List.indexOf_lt_length.mpr h.2⟩ -
                invertSVD svd (networkFisherMatrix
                  (sub_network_ids.map network.detectors)
                  network.detection_SNR.1 k)
                  ⟨fp.indexOf "ra", List.indexOf_lt_length.mpr h.1⟩
                  ⟨fp.indexOf "dec", List.indexOf_lt_length.mpr h.2⟩ ^ 2))) ∧
    sky_localization_area (![![4, 1], ![1, 9]] : Matrix (Fin 2) (Fin 2) ℝ) 0 0 1 =
      Real.pi * Real.sqrt 35 := by
  refine ⟨?_, ?_, ?_⟩
  · unfold compute_fisher_errors
    by_cases h : "ra" ∈ fp ∧ "dec" ∈ fp
    · simp only [dif_pos h, Option.isSome_some]
      exact iff_of_true trivial h
    · simp only [dif_neg h, Option.isSome_none]
      exact iff_of_false (by simp) h
  · intro h
    unfold compute_fisher_errors
    simp only [dif_pos h]
    rfl
  · unfold sky_localization_area
    rw [Real.cos_zero, abs_one, mul_one]
    norm_num [vecTail_const, Matrix.head_fin_const]

/-- C5 witness: with Fisher parameters `["ra", "dec"]` the sky-localization
slot of the result is present. -/
theorem C5_witness :
    ((compute_fisher_errors ["ra", "dec"] (fun _ => idSVD2) wNet2 (fun _ => 0)
      [0]).2.2).isSome :=
  (C5_sky_localization ["ra", "dec"] (fun _ => idSVD2) wNet2 (fun _ => 0) [0]).1.mpr
    ⟨by simp, by simp⟩

/-! ### Claim C3 -/

/-- C3: any matrix with a zero or negative diagonal entry fed to the matrix
conditioner makes the call a signaled failure (the non-finite normalizer
propagates into `np.linalg.svd`, which raises), and consequently the error
aggregation can only return successfully when every kept signal has at least
one detector above the per-detector inclusion threshold. -/
theorem C3_degenerate_matrix_failure :
    (∀ (n : ℕ) (svd : Matrix (Fin n) (Fin n) ℝ → SVDData n)
      (M : Matrix (Fin n) (Fin n) ℝ),
      (∃ i, M i i ≤ 0) → invertSVDF svd M = Except.error "LinAlgError") ∧
    (∀ (nd ns : ℕ) (fp : List String)
      (svd : Matrix (Fin fp.length) (Fin fp.length) ℝ → SVDData fp.length)
      (network : Network nd ns fp.length) (decv : Fin ns → ℝ)
      (sub_network_ids : List (Fin nd))
      (out : List ℝ × List (Fin fp.length → ℝ) × Option (List ℝ)),
      compute_fisher_errorsF fp svd network decv sub_network_ids =
        Except.ok out →
      ∀ k ∈ detectedIndices (networkSNR (sub_network_ids.map network.detectors))
          network.detection_SNR.2,
        ∃ d ∈ sub_network_ids,
          network.detection_SNR.1 < (network.detectors d).SNR k) := by
  constructor
  · exact fun n svd M h => invertSVDF_error svd M h
  · intro nd ns fp svd network decv sub out hok k _
    by_contra hno
    push_neg at hno
    unfold compute_fisher_errorsF at hok
    split at hok
    case isFalse => exact Except.noConfusion hok
    case isTrue hcond =>
      split at hok
      case isFalse => exact Except.noConfusion hok
      case isTrue hall =>
        have hzero : networkFisherMatrix (sub.map network.detectors)
            network.detection_SNR.1 k = 0 := by
          unfold networkFisherMatrix
          apply List.sum_eq_zero
          intro x hx
          rw [List.mem_map] at hx
          obtain ⟨δ, hδ, hxe⟩ := hx
          rw [List.mem_map] at hδ
          obtain ⟨d, hd, hde⟩ := hδ
          rw [← hxe, ← hde]
          rw [if_neg (not_lt.mpr (hno d hd))]
        have hk := hall k
        rw [hzero, invertSVDF_error svd 0
          ⟨⟨0, hcond.1⟩, le_of_eq (Matrix.zero_apply _ _)⟩] at hk
        simp [Except.isOk, Except.toBool] at hk

/-- C3 witness: the all-zero 2×2 matrix makes `invertSVDF` fail, and a
successful concrete aggregation run has a contributing detector for its kept
signal. -/
theorem C3_witness :
    invertSVDF (fun _ => idSVD2) (0 : Matrix (Fin 2) (Fin 2) ℝ) =
      Except.error "LinAlgError" ∧
    (∀ k ∈ detectedIndices ((([0] : List (Fin 1))).map wNet.detectors |>
        networkSNR) wNet.detection_SNR.2,
      ∃ d ∈ ([0] : List (Fin 1)),
        wNet.detection_SNR.1 < (wNet.detectors d).SNR k) := by
  constructor
  · exact C3_degenerate_matrix_failure.1 2 (fun _ => idSVD2) 0
      ⟨0, le_of_eq (Matrix.zero_apply _ _)⟩
  · refine C3_degenerate_matrix_failure.2 1 1 ["m"] (fun _ => idSVD1) wNet
      (fun _ => 0) [0] (compute_fisher_errors ["m"] (fun _ => idSVD1) wNet
        (fun _ => 0) [0]) ?_
    have hfin : ∀ i j : Fin 1,
        (matNormalizedF (1 : Matrix (Fin 1) (Fin 1) ℝ) i j).isSome := by
      intro i j
      have hii : (1 : Matrix (Fin 1) (Fin 1) ℝ) i i = 1 := by
        rw [Subsingleton.elim i 0, Matrix.one_apply_eq]
      have hjj : (1 : Matrix (Fin 1) (Fin 1) ℝ) j j = 1 := by
        rw [Subsingleton.elim j 0, Matrix.one_apply_eq]
      have h00 : (1 : Matrix (Fin 1) (Fin 1) ℝ) i j = 1 := by
        rw [Subsingleton.elim i 0, Subsingleton.elim j 0, Matrix.one_apply_eq]
      unfold matNormalizedF osqrt
      rw [hii, hjj, h00]
      rw [if_neg (by norm_num), Real.sqrt_one]
      simp [omul, odiv]
    have hfm : ∀ k : Fin 1,
        networkFisherMatrix ((([0] : List (Fin 1))).map wNet.detectors)
          wNet.detection_SNR.1 k = 1 := by
      intro k
      unfold networkFisherMatrix
      simp only [List.map_cons, List.map_nil, List.sum_cons, List.sum_nil]
      rw [if_pos (by norm_num [wNet, wDet])]
      simp [wNet, wDet]
    have hinv : ∀ k : Fin 1, (invertSVDF (fun _ => idSVD1)
        (networkFisherMatrix ((([0] : List (Fin 1))).map wNet.detectors)
          wNet.detection_SNR.1 k)).isOk := by
      intro k
      rw [hfm k]
      unfold invertSVDF
      rw [if_pos hfin]
      rfl
    unfold compute_fisher_errorsF
    rw [if_pos (by refine ⟨?_, ?_⟩ <;> norm_num)]
    split
    case isTrue => rfl
    case isFalse h => exact absurd hinv h

/-! ### Derivative Engine — `derivative`

The parameter dictionary is a partial map `String → Option ℝ`; `KeyError` is
an `Except.error`.  Waveform generation (`wf.hphc_amplitudes`) and
antenna-pattern projection (`det.projection`) are external collaborators,
passed as oracles over an abstract `Wave` type. -/

/-- A Python dict of real-valued parameters. -/
def Params : Type := String → Option ℝ

/-- Dict update `d[k] = v` (also used for building perturbed copies). -/
def dset (d : Params) (k : String) (v : ℝ) : Params :=
  fun q => if q = k then some v else d q

/-- The part of a detector the Derivative Engine reads. -/
structure WDetector (nf : ℕ) where
  frequencyvector : Fin nf → ℝ

/-- Shallow embedding of `derivative` from `refactoring_4/fishermatrix.py`
(lines 28–107).  `hphc` is `wf.hphc_amplitudes` and `proj` is
`det.projection`; `.copy()` on immutable values is the identity, so
`local_params` is just `parameter_values`. -/
def derivative {Wave : Type} {nf : ℕ}
    (hphc : String → Params → (Fin nf → ℝ) → Wave × (Fin nf → ℝ))
    (proj : Params → WDetector nf → Wave → (Fin nf → ℝ) → (Fin nf → ℂ))
    (waveform : String) (parameter_values : Params) (p : String)
    (detector : WDetector nf) : Except String (Fin nf → ℂ) :=
  let local_params := parameter_values
  match local_params "geocent_time" with
  | none => Except.error "KeyError: geocent_time"
  | some tc =>
    if p = "luminosity_distance" then
      let w := hphc waveform local_params detector.frequencyvector
      match local_params p with
      | none => Except.error "KeyError"
      | some pv =>
        Except.ok fun i =>
          ((-1 / pv : ℝ) : ℂ) * proj local_params detector w.1 w.2 i
    else if p = "geocent_time" then
      let w := hphc waveform local_params detector.frequencyvector
      Except.ok fun i =>
        2 * Complex.I * (Real.pi : ℂ) * ((detector.frequencyvector i : ℝ) : ℂ) *
          proj local_params detector w.1 w.2 i
    else if p = "phase" then
      let w := hphc waveform local_params detector.frequencyvector
      Except.ok fun i => -Complex.I * proj local_params detector w.1 w.2 i
    else
      match local_params p with
      | none => Except.error "KeyError"
      | some pv =>
        let dp : ℝ := max 1e-5 (1e-5 * pv)
        let pv_set1 := dset parameter_values p (pv - dp / 2)
        let pv_set2 := dset parameter_values p (pv + dp / 2)
        if p ∈ (["ra", "dec", "psi"] : List String) then
          let w := hphc waveform local_params detector.frequencyvector
          let signal1 := proj pv_set1 detector w.1 w.2
          let signal2 := proj pv_set2 detector w.1 w.2
          Except.ok fun i => (signal2 i - signal1 i) / (dp : ℂ)
        else
          let pv_set1z := dset pv_set1 "geocent_time" 0
          let pv_set2z := dset pv_set2 "geocent_time" 0
          let w1 := hphc waveform pv_set1z detector.frequencyvector
          let w2 := hphc waveform pv_set2z detector.frequencyvector
          let pv_set1t := dset pv_set1z "geocent_time" tc
          let pv_set2t := dset pv_set2z "geocent_time" tc
          let signal1 := proj pv_set1t detector w1.1 (fun i => w1.2 i + tc)
          let signal2 := proj pv_set2t detector w2.1 (fun i => w2.2 i + tc)
          Except.ok fun i =>
            Complex.exp (2 * Complex.I * (Real.pi : ℂ) *
                ((detector.frequencyvector i : ℝ) : ℂ) * (tc : ℂ)) *
              (signal2 i - signal1 i) / (dp : ℂ)

/-! ### Concrete oracles for derivative witnesses -/

/-- A one-bin detector with unit frequency grid. -/
def cDet1 : WDetector 1 := ⟨fun _ => 1⟩

/-- A trivial waveform generator over `Wave := Unit`. -/
def cHphcU : String → Params → (Fin 1 → ℝ) → Unit × (Fin 1 → ℝ) :=
  fun _ _ _ => ((), fun _ => 0)

/-- A trivial projection collaborator. -/
def cProjU : Params → WDetector 1 → Unit → (Fin 1 → ℝ) → (Fin 1 → ℂ) :=
  fun _ _ _ _ _ => 0

/-- A parameter dict holding only `geocent_time`. -/
def cParamsT : Params := fun q => if q = "geocent_time" then some 2 else none

/-- A parameter dict holding `ra`, `dec`, `mass_1` and `geocent_time`. -/
def cParamsR : Params := fun q =>
  if q = "ra" then some 1
  else if q = "dec" then some (1/2)
  else if q = "mass_1" then some 3
  else if q = "geocent_time" then some 2
  else none

/-! ### Claim C4 -/

/-- C4: for every waveform identifier, parameter vector containing
`geocent_time`, and detector, the derivative with respect to `geocent_time`
is exactly `2πi × frequency_grid × projection(...)` — a closed form, with no
finite-difference computation involved. -/
theorem C4_geocent_time_closed_form {Wave : Type} {nf : ℕ}
    (hphc : String → Params → (Fin nf → ℝ) → Wave × (Fin nf → ℝ))
    (proj : Params → WDetector nf → Wave → (Fin nf → ℝ) → (Fin nf → ℂ))
    (waveform : String) (params : Params) (detector : WDetector nf)
    (tc : ℝ) (htc : params "geocent_time" = some tc) :
    derivative hphc proj waveform params "geocent_time" detector =
      Except.ok (fun i =>
        2 * Complex.I * (Real.pi : ℂ) * ((detector.frequencyvector i : ℝ) : ℂ) *
          proj params detector (hphc waveform params detector.frequencyvector).1
            (hphc waveform params detector.frequencyvector).2 i) := by
  simp only [derivative, htc, String.reduceEq, reduceIte]

/-- C4 witness: the closed form at concrete collaborators. -/
theorem C4_witness :
    derivative cHphcU cProjU "wf" cParamsT "geocent_time" cDet1 =
      Except.ok (fun i =>
        2 * Complex.I * (Real.pi : ℂ) * ((cDet1.frequencyvector i : ℝ) : ℂ) *
          cProjU cParamsT cDet1 (cHphcU "wf" cParamsT cDet1.frequencyvector).1
            (cHphcU "wf" cParamsT cDet1.frequencyvector).2 i) :=
  C4_geocent_time_closed_form cHphcU cProjU "wf" cParamsT cDet1 2 (by rfl)

/-! ### Claim C7 -/

/-- C7: for every parameter other than the three closed-form ones, the
derivative is the central finite difference with step
`dp = max(1e-5, 1e-5 × value)` and perturbed values `value ± dp/2`.
For `ra`, `dec`, `psi` the unperturbed waveform is reused and the result is
`(projection_plus − projection_minus) / dp`; for every other parameter,
`geocent_time` is zeroed in both perturbed vectors before regenerating the
waveforms, the projections are taken with the true `geocent_time` restored
and `time_of_frequency` shifted by it, and the result is
`exp(2πi × frequency_grid × geocent_time) × (signal_plus − signal_minus) / dp`. -/
theorem C7_finite_difference {Wave : Type} {nf : ℕ}
    (hphc : String → Params → (Fin nf → ℝ) → Wave × (Fin nf → ℝ))
    (proj : Params → WDetector nf → Wave → (Fin nf → ℝ) → (Fin nf → ℂ))
    (waveform : String) (params : Params) (detector : WDetector nf)
    (tc : ℝ) (htc : params "geocent_time" = some tc) :
    (∀ p, p ∈ (["ra", "dec", "psi"] : List String) → ∀ pv, params p = some pv →
      derivative hphc proj waveform params p detector =
        Except.ok (fun i =>
          (proj (dset params p (pv + max 1e-5 (1e-5 * pv) / 2)) detector
              (hphc waveform params detector.frequencyvector).1
              (hphc waveform params detector.frequencyvector).2 i -
            proj (dset params p (pv - max 1e-5 (1e-5 * pv) / 2)) detector
              (hphc waveform params detector.frequencyvector).1
              (hphc waveform params detector.frequencyvector).2 i) /
            ((max 1e-5 (1e-5 * pv) : ℝ) : ℂ))) ∧
    (∀ p, p ∉ (["luminosity_distance", "geocent_time", "phase",
        "ra", "dec", "psi"] : List String) → ∀ pv, params p = some pv →
      derivative hphc proj waveform params p detector =
        Except.ok (fun i =>
          Complex.exp (2 * Complex.I * (Real.pi : ℂ) *
              ((detector.frequencyvector i : ℝ) : ℂ) * (tc : ℂ)) *
            (proj (dset (dset (dset params p (pv + max 1e-5 (1e-5 * pv) / 2))
                  "geocent_time" 0) "geocent_time" tc) detector
                (hphc waveform (dset (dset params p (pv + max 1e-5 (1e-5 * pv) / 2))
                  "geocent_time" 0) detector.frequencyvector).1
                (fun i => (hphc waveform (dset (dset params p
                    (pv + max 1e-5 (1e-5 * pv) / 2)) "geocent_time" 0)
                  detector.frequencyvector).2 i + tc) i -
              proj (dset (dset (dset params p (pv - max 1e-5 (1e-5 * pv) / 2))
                  "geocent_time" 0) "geocent_time" tc) detector
                (hphc waveform (dset (dset params p (pv - max 1e-5 (1e-5 * pv) / 2))
                  "geocent_time" 0) detector.frequencyvector).1
                (fun i => (hphc waveform (dset (dset params p
                    (pv - max 1e-5 (1e-5 * pv) / 2)) "geocent_time" 0)
                  detector.frequencyvector).2 i + tc) i) /
            ((max 1e-5 (1e-5 * pv) : ℝ) : ℂ))) := by
  constructor
  · intro p hp pv hpv
    simp only [List.mem_cons, List.mem_singleton, List.not_mem_nil, or_false] at hp
    rcases hp with h | h | h <;> subst h <;>
      simp only [derivative, htc, hpv, String.reduceEq, reduceIte] <;>
      rw [if_pos (by decide)]
  · intro p hp pv hpv
    have h1 : ¬ p = "luminosity_distance" := fun h => hp (by rw [h]; decide)
    have h2 : ¬ p = "geocent_time" := fun h => hp (by rw [h]; decide)
    have h3 : ¬ p = "phase" := fun h => hp (by rw [h]; decide)
    have h4 : ¬ p ∈ (["ra", "dec", "psi"] : List String) := fun h =>
      hp (List.mem_cons_of_mem _ (List.mem_cons_of_mem _ (List.mem_cons_of_mem _ h)))
    simp only [derivative, htc, hpv]
    rw [if_neg h1, if_neg h2, if_neg h3, if_neg h4]

/-- C7 witness: the `ra` finite difference at concrete collaborators. -/
theorem C7_witness :
    derivative cHphcU cProjU "wf" cParamsR "ra" cDet1 =
      Except.ok (fun i =>
        (cProjU (dset cParamsR "ra" (1 + max 1e-5 (1e-5 * 1) / 2)) cDet1
            (cHphcU "wf" cParamsR cDet1.frequencyvector).1
            (cHphcU "wf" cParamsR cDet1.frequencyvector).2 i -
          cProjU (dset cParamsR "ra" (1 - max 1e-5 (1e-5 * 1) / 2)) cDet1
            (cHphcU "wf" cParamsR cDet1.frequencyvector).1
            (cHphcU "wf" cParamsR cDet1.frequencyvector).2 i) /
          ((max 1e-5 (1e-5 * 1) : ℝ) : ℂ)) :=
  (C7_finite_difference cHphcU cProjU "wf" cParamsR cDet1 2 (by rfl)).1
    "ra" (by decide) 1 (by rfl)

/-! ### Claim C8 -/

/-- C8 counterexample: the claim "derivative signals a failure whenever the
requested parameter is absent from the parameter vector" fails for
`p = "phase"`: with a dict containing only `geocent_time`, the call returns a
value (the closed-form `-i × projection`) instead of failing, because the
`phase` branch never looks the parameter up. -/
theorem C8_counterexample :
    cParamsT "phase" = none ∧
    (derivative cHphcU cProjU "wf" cParamsT "phase" cDet1).isOk := by
  constructor
  · rfl
  · simp [derivative, cParamsT, String.reduceEq, reduceIte, Except.isOk, Except.toBool]

/-- C8 amended: for every requested parameter other than `"phase"`, if the
parameter is absent from the parameter vector then `derivative` signals a
failure (for `"phase"` itself the lookup never happens and no failure is
raised, as the counterexample shows). -/
theorem C8_amended {Wave : Type} {nf : ℕ}
    (hphc : String → Params → (Fin nf → ℝ) → Wave × (Fin nf → ℝ))
    (proj : Params → WDetector nf → Wave → (Fin nf → ℝ) → (Fin nf → ℂ))
    (waveform : String) (params : Params) (p : String) (detector : WDetector nf)
    (hp : params p = none) (hphase : p ≠ "phase") :
    ∃ e, derivative hphc proj waveform params p detector = Except.error e := by
  cases hgt : params "geocent_time" with
  | none => exact ⟨"KeyError: geocent_time", by simp only [derivative, hgt]⟩
  | some tc =>
    by_cases h1 : p = "luminosity_distance"
    · subst h1
      exact ⟨"KeyError", by simp only [derivative, hgt, hp, String.reduceEq, reduceIte]⟩
    · by_cases h2 : p = "geocent_time"
      · subst h2
        rw [hgt] at hp
        exact absurd hp (by simp)
      · refine ⟨"KeyError", ?_⟩
        simp only [derivative, hgt, hp]
        rw [if_neg h1, if_neg h2, if_neg hphase]

/-- C8 witness (for the amended claim): requesting the absent parameter
`mass_1` fails. -/
theorem C8_witness :
    ∃ e, derivative cHphcU cProjU "wf" cParamsT "mass_1" cDet1 = Except.error e :=
  C8_amended cHphcU cProjU "wf" cParamsT "mass_1" cDet1 (by rfl) (by decide)

/-! ### Fisher Assembler — `FisherMatrix` (claim C9) -/

/-- Value of a successful computation, with a default for the error case. -/
def exceptGetD {ε α : Type*} (e : Except ε α) (d : α) : α :=
  match e with
  | Except.ok a => a
  | Except.error _ => d

/-- Shallow embedding of `FisherMatrix` from `refactoring_4/fishermatrix.py`
(lines 110–126).  The loop computes, for `p1 ≤ p2`, the entry
`np.sum(aux.scalar_product(deriv1, deriv2, detector), axis=0)` and mirrors it
to `(p2, p1)`; `aux.scalar_product` is an external oracle returning one real
value per detector component (`Fin nc`).  Any failing derivative aborts the
computation. -/
def FisherMatrixE {Wave : Type} {nf nc : ℕ}
    (hphc : String → Params → (Fin nf → ℝ) → Wave × (Fin nf → ℝ))
    (proj : Params → WDetector nf → Wave → (Fin nf → ℝ) → (Fin nf → ℂ))
    (scalar_product : (Fin nf → ℂ) → (Fin nf → ℂ) → WDetector nf → Fin nc → ℝ)
    (waveform : String) (parameter_values : Params)
    (fisher_parameters : List String) (detector : WDetector nf) :
    Except String
      (Matrix (Fin fisher_parameters.length) (Fin fisher_parameters.length) ℝ) :=
  if ∀ i : Fin fisher_parameters.length,
      (derivative hphc proj waveform parameter_values
        (fisher_parameters.get i) detector).isOk then
    Except.ok (fun i j =>
      if i ≤ j then
        ∑ c, scalar_product
          (exceptGetD (derivative hphc proj waveform parameter_values
            (fisher_parameters.get i) detector) (fun _ => 0))
          (exceptGetD (derivative hphc proj waveform parameter_values
            (fisher_parameters.get j) detector) (fun _ => 0))
          detector c
      else
        ∑ c, scalar_product
          (exceptGetD (derivative hphc proj waveform parameter_values
            (fisher_parameters.get j) detector) (fun _ => 0))
          (exceptGetD (derivative hphc proj waveform parameter_values
            (fisher_parameters.get i) detector) (fun _ => 0))
          detector c)
  else Except.error "KeyError"

/-- C9: whenever `FisherMatrix` returns, its result is an `n × n` real matrix
that is exactly symmetric: `fm[i,j] = fm[j,i]` for all indices. -/
theorem C9_fisher_matrix_symmetric {Wave : Type} {nf nc : ℕ}
    (hphc : String → Params → (Fin nf → ℝ) → Wave × (Fin nf → ℝ))
    (proj : Params → WDetector nf → Wave → (Fin nf → ℝ) → (Fin nf → ℂ))
    (scalar_product : (Fin nf → ℂ) → (Fin nf → ℂ) → WDetector nf → Fin nc → ℝ)
    (waveform : String) (parameter_values : Params)
    (fisher_parameters : List String) (detector : WDetector nf)
    (fm : Matrix (Fin fisher_parameters.length) (Fin fisher_parameters.length) ℝ)
    (hok : FisherMatrixE hphc proj scalar_product waveform parameter_values
      fisher_parameters detector = Except.ok fm) :
    ∀ i j, fm i j = fm j i := by
  unfold FisherMatrixE at hok
  split at hok
  case isFalse => exact Except.noConfusion hok
  case isTrue hall =>
    have hfm := (Except.ok.inj hok).symm
    intro i j
    simp only [hfm]
    rcases le_or_lt i j with hij | hij
    · rcases lt_or_eq_of_le hij with hlt | heq
      · rw [if_pos hij, if_neg (not_le_of_lt hlt)]
      · subst heq
        rfl
    · rw [if_neg (not_le_of_lt hij), if_pos (le_of_lt hij)]

/-- The concrete scalar-product oracle for the C9 witness. -/
def cSP : (Fin 1 → ℂ) → (Fin 1 → ℂ) → WDetector 1 → Fin 1 → ℝ :=
  fun _ _ _ _ => 1

/-- The concrete Fisher matrix of the C9 witness run. -/
def c9fm : Matrix (Fin 2) (Fin 2) ℝ :=
  exceptGetD
    (FisherMatrixE cHphcU cProjU cSP "wf" cParamsR ["ra", "dec"] cDet1) 0

lemma c9_all_ok : ∀ i : Fin (["ra", "dec"] : List String).length,
    (derivative cHphcU cProjU "wf" cParamsR
      ((["ra", "dec"] : List String).get i) cDet1).isOk := by
  intro i
  fin_cases i <;>
    simp [derivative, cParamsR, String.reduceEq, reduceIte, Except.isOk,
      Except.toBool]

lemma c9_run_ok :
    FisherMatrixE cHphcU cProjU cSP "wf" cParamsR ["ra", "dec"] cDet1 =
      Except.ok c9fm := by
  unfold c9fm
  unfold FisherMatrixE
  rw [if_pos c9_all_ok]
  rfl

/-- C9 witness: a successful concrete run, checked symmetric at `(0, 1)`. -/
theorem C9_witness : c9fm 0 1 = c9fm 1 0 :=
  C9_fisher_matrix_symmetric cHphcU cProjU cSP "wf" cParamsR ["ra", "dec"]
    cDet1 c9fm c9_run_ok ⟨0, by decide⟩ ⟨1, by decide⟩

/-! ### Frame condition of `derivative` (claim C10)

To talk about mutation at all, Python dict objects are given identity: a
`Store` is a heap of dicts and a reference is an index into it.  `.copy()`
allocates a fresh dict; `d[k] = v` writes through a reference.  `derivativeS`
transcribes `derivative` line by line over this heap; the claim is that the
caller's dict (the one behind the argument reference) is never written. -/

/-- A heap of Python dict objects. -/
abbrev Store : Type := List Params

/-- `d.copy()`: allocate a fresh dict holding the given contents, returning
the new store and the fresh reference. -/
def salloc (st : Store) (d : Params) : Store × ℕ := (st ++ [d], st.length)

/-- Dereference. -/
def sread (st : Store) (r : ℕ) : Params := st.getD r (fun _ => none)

/-- In-place `d[k] = v` through a reference. -/
def swrite (st : Store) (r : ℕ) (k : String) (v : ℝ) : Store :=
  st.set r (dset (sread st r) k v)

/-- Store-level transcription of `derivative`: `pref` is the reference to the
caller's `parameter_values` dict; every `.copy()` becomes an allocation and
every dict assignment a `swrite` on the copy's reference, exactly as in the
Python source. -/
def derivativeS {Wave : Type} {nf : ℕ}
    (hphc : String → Params → (Fin nf → ℝ) → Wave × (Fin nf → ℝ))
    (proj : Params → WDetector nf → Wave → (Fin nf → ℝ) → (Fin nf → ℂ))
    (waveform : String) (pref : ℕ) (p : String) (detector : WDetector nf)
    (st : Store) : Except String ((Fin nf → ℂ) × Store) :=
  let a1 := salloc st (sread st pref)
  let st1 := a1.1
  let rL := a1.2
  match sread st1 rL "geocent_time" with
  | none => Except.error "KeyError: geocent_time"
  | some tc =>
    if p = "luminosity_distance" then
      let w := hphc waveform (sread st1 rL) detector.frequencyvector
      match sread st1 rL p with
      | none => Except.error "KeyError"
      | some pv =>
        Except.ok (fun i =>
          ((-1 / pv : ℝ) : ℂ) * proj (sread st1 rL) detector w.1 w.2 i, st1)
    else if p = "geocent_time" then
      let w := hphc waveform (sread st1 rL) detector.frequencyvector
      Except.ok (fun i =>
        2 * Complex.I * (Real.pi : ℂ) * ((detector.frequencyvector i : ℝ) : ℂ) *
          proj (sread st1 rL) detector w.1 w.2 i, st1)
    else if p = "phase" then
      let w := hphc waveform (sread st1 rL) detector.frequencyvector
      Except.ok (fun i => -Complex.I * proj (sread st1 rL) detector w.1 w.2 i, st1)
    else
      match sread st1 rL p with
      | none => Except.error "KeyError"
      | some pv =>
        let dp : ℝ := max 1e-5 (1e-5 * pv)
        let a2 := salloc st1 (sread st1 pref)
        let st2 := a2.1
        let r1 := a2.2
        let a3 := salloc st2 (sread st2 pref)
        let st3 := a3.1
        let r2 := a3.2
        let st4 := swrite st3 r1 p (pv - dp / 2)
        let st5 := swrite st4 r2 p (pv + dp / 2)
        if p ∈ (["ra", "dec", "psi"] : List String) then
          let w := hphc waveform (sread st5 rL) detector.frequencyvector
          let signal1 := proj (sread st5 r1) detector w.1 w.2
          let signal2 := proj (sread st5 r2) detector w.1 w.2
          Except.ok (fun i => (signal2 i - signal1 i) / (dp : ℂ), st5)
        else
          let st6 := swrite st5 r1 "geocent_time" 0
          let st7 := swrite st6 r2 "geocent_time" 0
          let w1 := hphc waveform (sread st7 r1) detector.frequencyvector
          let w2 := hphc waveform (sread st7 r2) detector.frequencyvector
          let st8 := swrite st7 r1 "geocent_time" tc
          let st9 := swrite st8 r2 "geocent_time" tc
          let signal1 := proj (sread st9 r1) detector w1.1 (fun i => w1.2 i + tc)
          let signal2 := proj (sread st9 r2) detector w2.1 (fun i => w2.2 i + tc)
          Except.ok (fun i =>
            Complex.exp (2 * Complex.I * (Real.pi : ℂ) *
                ((detector.frequencyvector i : ℝ) : ℂ) * (tc : ℂ)) *
              (signal2 i - signal1 i) / (dp : ℂ), st9)

lemma sread_append_lt (st : Store) (d : Params) (r : ℕ) (h : r < st.length) :
    sread (st ++ [d]) r = sread st r := by
  unfold sread
  simp only [List.getD_eq_getElem?_getD, List.getElem?_append_left h]

lemma swrite_length (st : Store) (r : ℕ) (k : String) (v : ℝ) :
    (swrite st r k v).length = st.length := by
  unfold swrite
  exact List.length_set st r _

lemma sread_swrite_ne (st : Store) (rw r : ℕ) (k : String) (v : ℝ)
    (h : r ≠ rw) : sread (swrite st rw k v) r = sread st r := by
  unfold swrite sread
  simp only [List.getD_eq_getElem?_getD,
    List.getElem?_set_ne (fun he => h he.symm)]

/-- C10: `derivative` never mutates the caller's parameter dict: whatever the
requested parameter and outcome value, after a successful call the dict
behind the caller's reference is unchanged — all perturbations and the
temporary zeroing of `geocent_time` hit only the freshly allocated copies. -/
theorem C10_no_mutation {Wave : Type} {nf : ℕ}
    (hphc : String → Params → (Fin nf → ℝ) → Wave × (Fin nf → ℝ))
    (proj : Params → WDetector nf → Wave → (Fin nf → ℝ) → (Fin nf → ℂ))
    (waveform : String) (pref : ℕ) (p : String) (detector : WDetector nf)
    (st : Store) (hr : pref < st.length) (pr : (Fin nf → ℂ) × Store)
    (hok : derivativeS hphc proj waveform pref p detector st = Except.ok pr) :
    sread pr.2 pref = sread st pref := by
  simp only [derivativeS, salloc] at hok
  split at hok
  · exact Except.noConfusion hok
  · split at hok
    · split at hok
      · exact Except.noConfusion hok
      · simp only [← Except.ok.inj hok]
        exact sread_append_lt st _ pref hr
    · split at hok
      · simp only [← Except.ok.inj hok]
        exact sread_append_lt st _ pref hr
      · split at hok
        · simp only [← Except.ok.inj hok]
          exact sread_append_lt st _ pref hr
        · split at hok
          · exact Except.noConfusion hok
          · split at hok
            · simp only [← Except.ok.inj hok]
              rw [sread_swrite_ne, sread_swrite_ne, sread_append_lt,
                sread_append_lt, sread_append_lt]
              · exact hr
              · simp only [List.length_append, List.length_cons, List.length_nil]
                omega
              · simp only [List.length_append, List.length_cons, List.length_nil]
                omega
              · simp only [List.length_append, List.length_cons, List.length_nil]
                omega
              · simp only [List.length_append, List.length_cons, List.length_nil]
                omega
            · simp only [← Except.ok.inj hok]
              rw [sread_swrite_ne, sread_swrite_ne, sread_swrite_ne,
                sread_swrite_ne, sread_swrite_ne, sread_swrite_ne,
                sread_append_lt, sread_append_lt, sread_append_lt]
              · exact hr
              · simp only [List.length_append, List.length_cons, List.length_nil]
                omega
              · simp only [List.length_append, List.length_cons, List.length_nil]
                omega
              · simp only [swrite_length, List.length_append, List.length_cons,
                  List.length_nil]
                omega
              · simp only [swrite_length, List.length_append, List.length_cons,
                  List.length_nil]
                omega
              · simp only [swrite_length, List.length_append, List.length_cons,
                  List.length_nil]
                omega
              · simp only [swrite_length, List.length_append, List.length_cons,
                  List.length_nil]
                omega
              · simp only [swrite_length, List.length_append, List.length_cons,
                  List.length_nil]
                omega
              · simp only [swrite_length, List.length_append, List.length_cons,
                  List.length_nil]
                omega

/-- The result (value and final store) of the concrete C10 witness run. -/
def c10res : (Fin 1 → ℂ) × Store :=
  (derivativeS cHphcU cProjU "wf" 0 "ra" cDet1 [cParamsR]).toOption.getD
    (fun _ => 0, [])

/-- C10 witness: a successful concrete run leaves the caller's dict intact. -/
theorem C10_witness : sread c10res.2 0 = sread [cParamsR] 0 :=
  C10_no_mutation cHphcU cProjU "wf" 0 "ra" cDet1 [cParamsR]
    (by decide) c10res rfl

end FisherSpec
